import Mathlib

/-
Verification of the core orchestration logic of mystic/search.py
(class Searcher): the retry/novelty stopping rule of Search, the
klepto-backed memoization into the archive, and the Minima and
Trajectories extractors.

Modelling conventions:
* Coordinates and objective values are rationals; Python floats carry
  rational values here, and round(x, t) is modelled as decimal
  round-half-to-even (the documented CPython behaviour).
* The archive (a klepto dict_archive, i.e. a dict) is modelled as an
  association list in insertion order; the program never creates
  duplicate keys, since every write goes through the cache keying.
* The memoization in Searcher._memoize wraps klepto.inf_cache around
  self.archive with keymap ignoring the out keyword: a call first
  rounds the positional args at tol decimals to form the key, then
  looks the key up in the cache; on a hit the stored value is returned
  and nothing is written, on a miss the out value is stored.
* The sprayer/seeker ensemble is external: a SearchEnv supplies, for
  each spray index n, the list of (bestSolution, bestEnergy) pairs its
  solvers converge to.  Loops are written with explicit fuel; claims
  about terminating runs are conditioned on the loop returning a value.
-/

namespace MysticSearch

/-- Decimal round-half-to-even of a rational to an integer: models the
Python built-in round applied to a value (CPython rounds half to even). -/
def roundHalfEven (x : ℚ) : ℤ :=
  if x - ⌊x⌋ < 1/2 then ⌊x⌋
  else if 1/2 < x - ⌊x⌋ then ⌊x⌋ + 1
  else if ⌊x⌋ % 2 = 0 then ⌊x⌋ else ⌊x⌋ + 1

/-- Models Python round(x, t): round at t decimal digits. -/
def pyRound (t : ℕ) (x : ℚ) : ℚ := (roundHalfEven (x * 10 ^ t) : ℚ) / 10 ^ t

/-- Canonical archive key: a coordinate vector rounded componentwise. -/
abbrev Key := List ℚ

/-- The sampled point archive, modelled as an association list in
insertion order (the program keeps it as a dict with unique keys). -/
abbrev Archive := List (Key × ℚ)

/-- The canonical key of a coordinate vector at memtol precision, as
computed by the rounding layer of klepto.inf_cache(tol=memtol). -/
def memoKey (memtol : ℕ) (x : List ℚ) : Key := x.map (pyRound memtol)

/-- The key list of an archive. -/
def keys (a : Archive) : List Key := a.map Prod.fst

/-- One memoized call memo(*bestSol, out=l*bestRes) in Searcher._memoize:
klepto.inf_cache rounds the args at memtol decimals into the key, then on
a cache hit returns the stored value without writing, and on a miss
stores the out value. -/
def memoInsert (memtol : ℕ) (a : Archive) (x : List ℚ) (out : ℚ) : Archive :=
  if memoKey memtol x ∈ keys a then a else a ++ [(memoKey memtol x, out)]

/-- Searcher._memoize: for each solver of the ensemble, memoize
(bestSolution, l * bestEnergy) where l = -1 if inverted else 1. -/
def memoizeSolvers (inv : Bool) (memtol : ℕ) (rs : List (List ℚ × ℚ))
    (a : Archive) : Archive :=
  rs.foldl (fun acc r => memoInsert memtol acc r.1 ((if inv then -1 else 1) * r.2)) a

/-- The external collaborators of one Search call: results n is the list
of (bestSolution, bestEnergy) pairs produced by the solvers of the n-th
spray, and memtol and inv are the searcher configuration. -/
structure SearchEnv where
  results : ℕ → List (List ℚ × ℚ)
  memtol : ℕ
  inv : Bool

/-- One call of Searcher._search, restricted to its archive effect:
run spray n and memoize its results (the returned size is the archive
length, which the loops below read off directly). -/
def doSpray (env : SearchEnv) (n : ℕ) (a : Archive) : Archive :=
  memoizeSolvers env.inv env.memtol (env.results n) a

/-- The inner loop of Searcher.Search:
_size = -1; size = len(archive); while size > _size: _size = size; spray.
Arguments: fuel, next spray index n, archive, previous size _size.
Returns the next spray index, the final archive, and the trace of
(size before, size after) pairs, one per executed spray; none means the
fuel ran out before the loop exited. -/
def innerLoop (env : SearchEnv) :
    ℕ → ℕ → Archive → ℤ → Option (ℕ × Archive × List (ℕ × ℕ))
  | 0, _, _, _ => none
  | fuel + 1, n, a, psize =>
    if (a.length : ℤ) > psize then
      match innerLoop env fuel (n + 1) (doSpray env n a) (a.length : ℤ) with
      | none => none
      | some (n', afin, tr) => some (n', afin, (a.length, (doSpray env n a).length) :: tr)
    else some (n, a, [])

/-- The outer loop of Searcher.Search:
while retry > count: osize = len(archive); inner loop;
count = count + 1 if size == osize else 0.
Returns the final archive and the productivity trace, one Bool per outer
round (true when the round grew the archive); none when fuel ran out. -/
def outerLoop (env : SearchEnv) (retry : ℕ) :
    ℕ → ℤ → ℕ → Archive → Option (Archive × List Bool)
  | 0, _, _, _ => none
  | fuel + 1, count, n, a =>
    if (retry : ℤ) > count then
      match innerLoop env (fuel + 1) n a (-1) with
      | none => none
      | some (n', a', _) =>
        match outerLoop env retry fuel (if a'.length = a.length then count + 1 else 0) n' a' with
        | none => none
        | some (afin, tr) => some (afin, decide (a'.length ≠ a.length) :: tr)
    else some (a, [])

/-- Searcher.Search restricted to its archive effect: the counter starts
at 0 if retry is nonzero and at -1 otherwise (count = 0 if self.retry
else -1), then the outer loop runs. -/
def Search (env : SearchEnv) (retry : ℕ) (fuel : ℕ) (a : Archive) :
    Option (Archive × List Bool) :=
  outerLoop env retry fuel (if retry = 0 then -1 else 0) 0 a

/-- The consecutive-unproductive-round counter of Search after folding a
productivity trace, starting from count: a productive round resets it to
0, an unproductive round increments it. -/
def unprodAfter (count : ℤ) (tr : List Bool) : ℤ :=
  tr.foldl (fun c b => if b then 0 else c + 1) count

/-- Searcher.Minima: take the extreme of the stored values (max when
inverted, min otherwise; Python min/max raise on an empty sequence,
modelled as none), and keep every entry whose value rounds at tol to the
same number as the extreme. -/
def Minima (inv : Bool) (tol : ℕ) (a : Archive) : Option Archive :=
  match a.map Prod.snd with
  | [] => none
  | v :: vs =>
    some (a.filter (fun p =>
      decide (pyRound tol p.2 = pyRound tol (if inv then vs.foldl max v else vs.foldl min v))))

/-- A value is the extreme of a list of values: it occurs in the list
and bounds every element (from above when inverted, from below when
not).  This is the specification-side notion Minima is checked against. -/
def isExtreme (inv : Bool) (e : ℚ) (vs : List ℚ) : Prop :=
  e ∈ vs ∧ ∀ v ∈ vs, if inv then v ≤ e else e ≤ v

/-- A per-seeker trajectory record, as returned by read_trajectories on
the seeker step monitor: (step, param, cost) lists. -/
abbrev TrajData := List ℕ × List (List ℚ) × List ℚ

/-- The trajectory-relevant state of a Searcher: the traj flag, the
step monitor filename of the last configured solver when one exists
(none models the AttributeError raised when the attribute is missing),
and the retained sprayers with the trajectory data of their seekers. -/
structure TrajState where
  traj : Bool
  stepmonFilename : Option String
  allSolvers : List (List TrajData)

/-- The message of the RuntimeError raised by Searcher.Trajectories. -/
def trajErrorMsg : String := "a LoggingMonitor or UseTrajectories is required"

/-- Searcher.Trajectories: when traj is set, flatten the retained
trajectories of every seeker of every sprayer into three parallel lists;
otherwise read the persisted step log by filename, and raise a
RuntimeError when no filename is available.  readLog models
read_trajectories on a filename. -/
def Trajectories (s : TrajState) (readLog : String → TrajData) :
    Except String TrajData :=
  if s.traj then
    .ok (s.allSolvers.foldl (fun acc sprayer =>
      sprayer.foldl (fun acc2 seeker =>
        (acc2.1 ++ seeker.1, acc2.2.1 ++ seeker.2.1, acc2.2.2 ++ seeker.2.2)) acc)
      ([], [], []))
  else
    match s.stepmonFilename with
    | some f => .ok (readLog f)
    | none => .error trajErrorMsg

/-! Helper lemmas: memoization only appends to the archive. -/

lemma memoInsert_append (m : ℕ) (a : Archive) (x : List ℚ) (v : ℚ) :
    ∃ t, memoInsert m a x v = a ++ t := by
  unfold memoInsert
  split
  · exact ⟨[], by simp⟩
  · exact ⟨[(memoKey m x, v)], rfl⟩

lemma memoizeSolvers_append (inv : Bool) (m : ℕ) (rs : List (List ℚ × ℚ)) :
    ∀ a : Archive, ∃ t, memoizeSolvers inv m rs a = a ++ t := by
  induction rs with
  | nil => intro a; exact ⟨[], by simp [memoizeSolvers]⟩
  | cons r rs ih =>
      intro a
      obtain ⟨t1, h1⟩ := memoInsert_append m a r.1 ((if inv then -1 else 1) * r.2)
      obtain ⟨t2, h2⟩ := ih (memoInsert m a r.1 ((if inv then -1 else 1) * r.2))
      refine ⟨t1 ++ t2, ?_⟩
      have hc : memoizeSolvers inv m (r :: rs) a
          = memoizeSolvers inv m rs (memoInsert m a r.1 ((if inv then -1 else 1) * r.2)) := rfl
      rw [hc, h2, h1, List.append_assoc]

lemma doSpray_append (env : SearchEnv) (n : ℕ) (a : Archive) :
    ∃ t, doSpray env n a = a ++ t :=
  memoizeSolvers_append env.inv env.memtol (env.results n) a

lemma doSpray_length_le (env : SearchEnv) (n : ℕ) (a : Archive) :
    a.length ≤ (doSpray env n a).length := by
  obtain ⟨t, h⟩ := doSpray_append env n a
  simp [h]

lemma doSpray_mem (env : SearchEnv) (n : ℕ) (a : Archive) :
    ∀ p ∈ a, p ∈ doSpray env n a := by
  obtain ⟨t, h⟩ := doSpray_append env n a
  intro p hp; rw [h]; exact List.mem_append_left t hp

lemma innerLoop_append (env : SearchEnv) :
    ∀ (fuel n : ℕ) (a : Archive) (psize : ℤ) (res : ℕ × Archive × List (ℕ × ℕ)),
      innerLoop env fuel n a psize = some res → ∃ t, res.2.1 = a ++ t := by
  intro fuel
  induction fuel with
  | zero => intro n a psize res h; simp [innerLoop] at h
  | succ fuel ih =>
      intro n a psize res h
      rw [innerLoop] at h
      split at h
      · cases heq : innerLoop env fuel (n + 1) (doSpray env n a) (a.length : ℤ) with
        | none => rw [heq] at h; simp at h
        | some r =>
            rw [heq] at h
            obtain ⟨n', afin, tr⟩ := r
            simp only [Option.some.injEq] at h
            obtain ⟨t1, h1⟩ := ih (n + 1) (doSpray env n a) _ _ heq
            obtain ⟨t0, h0⟩ := doSpray_append env n a
            refine ⟨t0 ++ t1, ?_⟩
            rw [← h, ← List.append_assoc, ← h0]
            exact h1
      · simp only [Option.some.injEq] at h
        exact ⟨[], by rw [← h]; simp⟩

lemma outerLoop_append (env : SearchEnv) (retry : ℕ) :
    ∀ (fuel : ℕ) (count : ℤ) (n : ℕ) (a : Archive) (res : Archive × List Bool),
      outerLoop env retry fuel count n a = some res → ∃ t, res.1 = a ++ t := by
  intro fuel
  induction fuel with
  | zero => intro count n a res h; simp [outerLoop] at h
  | succ fuel ih =>
      intro count n a res h
      rw [outerLoop] at h
      split at h
      · cases heq : innerLoop env (fuel + 1) n a (-1) with
        | none => rw [heq] at h; simp at h
        | some r =>
            rw [heq] at h
            obtain ⟨n', a', tr'⟩ := r
            dsimp only at h
            cases heq2 : outerLoop env retry fuel
                (if a'.length = a.length then count + 1 else 0) n' a' with
            | none => rw [heq2] at h; simp at h
            | some r2 =>
                rw [heq2] at h
                obtain ⟨afin, tr2⟩ := r2
                simp only [Option.some.injEq] at h
                obtain ⟨t1, h1⟩ := innerLoop_append env _ _ _ _ _ heq
                obtain ⟨t2, h2⟩ := ih _ _ _ _ heq2
                refine ⟨t1 ++ t2, ?_⟩
                rw [← h, ← List.append_assoc, ← h1]
                exact h2
      · simp only [Option.some.injEq] at h
        exact ⟨[], by rw [← h]; simp⟩

/-- A concrete environment for witnesses: spray 0 finds one point, every
later spray finds nothing new. -/
def envW : SearchEnv where
  results n := match n with | 0 => [([0], 1)] | _ => []
  memtol := 1
  inv := false

/-- C1: for retry = 0, a call to Search executes exactly one outer round
(the productivity trace has length one) and then returns, regardless of
whether that round grew the archive. -/
theorem search_zero_retry_one_round (env : SearchEnv) (fuel : ℕ) (a : Archive)
    (res : Archive × List Bool) (h : Search env 0 fuel a = some res) :
    res.2.length = 1 := by
  unfold Search at h
  have hinit : (if (0 : ℕ) = 0 then (-1 : ℤ) else 0) = -1 := by norm_num
  rw [hinit] at h
  cases fuel with
  | zero => simp [outerLoop] at h
  | succ fuel =>
      rw [outerLoop] at h
      rw [if_pos (by norm_num : ((0 : ℕ) : ℤ) > -1)] at h
      cases heq : innerLoop env (fuel + 1) 0 a (-1) with
      | none => rw [heq] at h; simp at h
      | some r =>
          rw [heq] at h
          obtain ⟨n', a', tr'⟩ := r
          dsimp only at h
          have hc : (if a'.length = a.length then (-1 : ℤ) + 1 else 0) = 0 := by
            split <;> norm_num
          rw [hc] at h
          cases fuel with
          | zero => simp [outerLoop] at h
          | succ fuel =>
              rw [outerLoop] at h
              rw [if_neg (by norm_num : ¬ ((0 : ℕ) : ℤ) > 0)] at h
              simp only [Option.some.injEq] at h
              rw [← h]
              rfl

/-- C1 witness: with the concrete environment envW, fuel 10 and an empty
starting archive, Search with retry 0 returns after exactly one round. -/
theorem search_zero_retry_one_round_witness :
    ((([([(0 : ℚ)], (1 : ℚ))], [true]) : Archive × List Bool)).2.length = 1 :=
  search_zero_retry_one_round envW 4 [] ([([0], 1)], [true]) (by
    norm_num [Search, outerLoop, innerLoop, doSpray, envW, memoizeSolvers,
      memoInsert, memoKey, keys, pyRound, roundHalfEven])

/-- C8: memoization only appends entries, so within one Search call the
archive size after each spray is at least the size before it, no entry is
ever removed, and the archive a Search call returns extends the archive
it started from. -/
theorem search_archive_monotone :
    (∀ (env : SearchEnv) (n : ℕ) (a : Archive),
        a.length ≤ (doSpray env n a).length ∧ ∀ p ∈ a, p ∈ doSpray env n a) ∧
    (∀ (env : SearchEnv) (retry fuel : ℕ) (a : Archive) (res : Archive × List Bool),
        Search env retry fuel a = some res →
          a.length ≤ res.1.length ∧ ∀ p ∈ a, p ∈ res.1) := by
  constructor
  · intro env n a
    exact ⟨doSpray_length_le env n a, doSpray_mem env n a⟩
  · intro env retry fuel a res h
    obtain ⟨t, ht⟩ := outerLoop_append env retry fuel _ 0 a res h
    constructor
    · simp [ht]
    · intro p hp; rw [ht]; exact List.mem_append_left t hp

/-- C8 witness: concrete instances of both parts of the monotonicity
theorem, at envW with a one-entry starting archive. -/
theorem search_archive_monotone_witness :
    ([([(9 : ℚ)], (9 : ℚ))] : Archive).length ≤ (doSpray envW 0 [([9], 9)]).length ∧
    ([([(9 : ℚ)], (9 : ℚ))] : Archive).length ≤
      (([([(9 : ℚ)], (9 : ℚ)), ([0], 1)], [true, false]) : Archive × List Bool).1.length :=
  ⟨(search_archive_monotone.1 envW 0 [([9], 9)]).1,
   (search_archive_monotone.2 envW 1 4 [([9], 9)]
      ([([9], 9), ([0], 1)], [true, false]) (by
        norm_num [Search, outerLoop, innerLoop, doSpray, envW, memoizeSolvers,
          memoInsert, memoKey, keys, pyRound, roundHalfEven])).1⟩

lemma unprodAfter_cons (count : ℤ) (b : Bool) (tr : List Bool) :
    unprodAfter count (b :: tr) = unprodAfter (if b then 0 else count + 1) tr := rfl

/-- The counter invariant of the outer loop: started with 0 ≤ count ≤ retry,
a terminating run ends with the folded counter exactly at retry, and every
proper prefix of the round trace keeps the folded counter below retry. -/
lemma outerLoop_count_spec (env : SearchEnv) (R : ℕ) :
    ∀ (fuel : ℕ) (count : ℤ) (n : ℕ) (a : Archive) (res : Archive × List Bool),
      0 ≤ count → count ≤ (R : ℤ) →
      outerLoop env R fuel count n a = some res →
      unprodAfter count res.2 = (R : ℤ) ∧
        ∀ k, k < res.2.length → unprodAfter count (res.2.take k) < (R : ℤ) := by
  intro fuel
  induction fuel with
  | zero => intro count n a res _ _ h; simp [outerLoop] at h
  | succ fuel ih =>
      intro count n a res h0 hR h
      rw [outerLoop] at h
      by_cases hc : (R : ℤ) > count
      · rw [if_pos hc] at h
        cases heq : innerLoop env (fuel + 1) n a (-1) with
        | none => rw [heq] at h; simp at h
        | some r =>
            rw [heq] at h
            obtain ⟨n', a', tr'⟩ := r
            dsimp only at h
            cases heq2 : outerLoop env R fuel
                (if a'.length = a.length then count + 1 else 0) n' a' with
            | none => rw [heq2] at h; simp at h
            | some r2 =>
                rw [heq2] at h
                obtain ⟨afin, tr2⟩ := r2
                simp only [Option.some.injEq] at h
                obtain rfl : res = (afin, decide (a'.length ≠ a.length) :: tr2) := h.symm
                by_cases hlen : a'.length = a.length
                · rw [if_pos hlen] at heq2
                  obtain ⟨hsp1, hsp2⟩ := ih (count + 1) n' a' (afin, tr2)
                    (by omega) (by omega) heq2
                  have hb : decide (a'.length ≠ a.length) = false := by simp [hlen]
                  constructor
                  · rw [hb]
                    show unprodAfter count (false :: tr2) = (R : ℤ)
                    rw [unprodAfter_cons]
                    simpa using hsp1
                  · intro k hk
                    rw [hb]
                    cases k with
                    | zero => simpa [unprodAfter] using hc
                    | succ k =>
                        show unprodAfter count (false :: tr2.take k) < (R : ℤ)
                        rw [unprodAfter_cons]
                        have := hsp2 k (by simpa using hk)
                        simpa using this
                · rw [if_neg hlen] at heq2
                  obtain ⟨hsp1, hsp2⟩ := ih 0 n' a' (afin, tr2)
                    le_rfl (Int.natCast_nonneg R) heq2
                  have hb : decide (a'.length ≠ a.length) = true := by simp [hlen]
                  constructor
                  · rw [hb]
                    show unprodAfter count (true :: tr2) = (R : ℤ)
                    rw [unprodAfter_cons]
                    simpa using hsp1
                  · intro k hk
                    rw [hb]
                    cases k with
                    | zero => simpa [unprodAfter] using hc
                    | succ k =>
                        show unprodAfter count (true :: tr2.take k) < (R : ℤ)
                        rw [unprodAfter_cons]
                        have := hsp2 k (by simpa using hk)
                        simpa using this
      · rw [if_neg hc] at h
        simp only [Option.some.injEq] at h
        obtain rfl : res = (a, []) := h.symm
        constructor
        · show count = (R : ℤ)
          omega
        · intro k hk
          simp at hk

/-- C2: for retry = R > 0, a terminating Search runs at least one outer
round, the consecutive-unproductive counter folded over the productivity
trace ends exactly at R, and it stays below R after every proper prefix
of the trace: the loop stops at the first time R consecutive rounds leave
the archive size unchanged, and any productive round resets the counter. -/
theorem search_retry_exhaustion (env : SearchEnv) (R fuel : ℕ) (a : Archive)
    (res : Archive × List Bool) (hR : 0 < R) (h : Search env R fuel a = some res) :
    res.2 ≠ [] ∧ unprodAfter 0 res.2 = (R : ℤ) ∧
      ∀ k, k < res.2.length → unprodAfter 0 (res.2.take k) < (R : ℤ) := by
  unfold Search at h
  rw [if_neg (by omega : ¬ R = 0)] at h
  obtain ⟨h1, h2⟩ := outerLoop_count_spec env R fuel 0 0 a res le_rfl
    (Int.natCast_nonneg R) h
  refine ⟨?_, h1, h2⟩
  intro hnil
  rw [hnil] at h1
  simp [unprodAfter] at h1
  omega

/-- C2 witness: with envW and retry 1, Search runs a productive round then
an unproductive one and stops, and the counter law holds on that trace. -/
theorem search_retry_exhaustion_witness :
    ([true, false] : List Bool) ≠ [] ∧
      unprodAfter 0 [true, false] = ((1 : ℕ) : ℤ) ∧
      ∀ k, k < ([true, false] : List Bool).length →
        unprodAfter 0 (([true, false] : List Bool).take k) < ((1 : ℕ) : ℤ) :=
  search_retry_exhaustion envW 1 4 [] ([([0], 1)], [true, false]) (by norm_num) (by
    norm_num [Search, outerLoop, innerLoop, doSpray, envW, memoizeSolvers,
      memoInsert, memoKey, keys, pyRound, roundHalfEven])

/-- The inner loop invariant: entered with the previous size below the
archive size, a terminating inner loop records at least one spray, every
spray before the last strictly grew the archive, and the last spray left
the size unchanged. -/
lemma innerLoop_trace_spec (env : SearchEnv) :
    ∀ (fuel n : ℕ) (a : Archive) (psize : ℤ) (res : ℕ × Archive × List (ℕ × ℕ)),
      psize < (a.length : ℤ) →
      innerLoop env fuel n a psize = some res →
      ∃ pre last, res.2.2 = pre ++ [last] ∧
        (∀ p ∈ pre, p.1 < p.2) ∧ last.1 = last.2 := by
  intro fuel
  induction fuel with
  | zero => intro n a psize res _ h; simp [innerLoop] at h
  | succ fuel ih =>
      intro n a psize res hlt h
      rw [innerLoop] at h
      rw [if_pos hlt] at h
      cases heq : innerLoop env fuel (n + 1) (doSpray env n a) (a.length : ℤ) with
      | none => rw [heq] at h; simp at h
      | some r =>
          rw [heq] at h
          obtain ⟨n'', afin, tr'⟩ := r
          dsimp only at h
          simp only [Option.some.injEq] at h
          obtain rfl : res = (n'', afin, (a.length, (doSpray env n a).length) :: tr') :=
            h.symm
          by_cases hg : (a.length : ℤ) < ((doSpray env n a).length : ℤ)
          · obtain ⟨pre', last', htr, hpre, hlast⟩ :=
              ih (n + 1) (doSpray env n a) (a.length : ℤ) (n'', afin, tr') hg heq
            refine ⟨(a.length, (doSpray env n a).length) :: pre', last', ?_, ?_, hlast⟩
            · show (a.length, (doSpray env n a).length) :: tr' = _
              rw [show tr' = pre' ++ [last'] from htr]
              rfl
            · intro p hp
              rcases List.mem_cons.mp hp with hph | hpm
              · rw [hph]
                exact_mod_cast hg
              · exact hpre p hpm
          · have hle : ((doSpray env n a).length : ℤ) ≤ (a.length : ℤ) := not_lt.mp hg
            have hlen : (doSpray env n a).length = a.length :=
              le_antisymm (by exact_mod_cast hle) (doSpray_length_le env n a)
            cases fuel with
            | zero => rw [innerLoop] at heq; simp at heq
            | succ fuel2 =>
                rw [innerLoop] at heq
                rw [if_neg hg] at heq
                simp only [Option.some.injEq] at heq
                obtain ⟨rfl, rfl, rfl⟩ : n + 1 = n'' ∧ doSpray env n a = afin ∧ [] = tr' := by
                  have := heq
                  exact ⟨congrArg Prod.fst this, congrArg (fun x => x.2.1) this,
                    congrArg (fun x => x.2.2) this⟩
                exact ⟨[], (a.length, (doSpray env n a).length), rfl, by simp,
                  hlen.symm⟩

/-- C3: within each outer round of Search, the inner loop executes at
least one spray; every spray before the last strictly increases the
archive size, and the loop stops at the first spray that leaves the
archive size unchanged.  The loop is entered with previous size -1,
exactly as Search enters it. -/
theorem search_inner_spray_spec (env : SearchEnv) (fuel n : ℕ) (a : Archive)
    (res : ℕ × Archive × List (ℕ × ℕ)) (h : innerLoop env fuel n a (-1) = some res) :
    ∃ pre last, res.2.2 = pre ++ [last] ∧
      (∀ p ∈ pre, p.1 < p.2) ∧ last.1 = last.2 :=
  innerLoop_trace_spec env fuel n a (-1) res (by omega) h

/-- C3 witness: the concrete inner loop at envW sprays twice: the first
spray grows the archive from 0 to 1 entries, the second adds nothing and
stops the loop. -/
theorem search_inner_spray_spec_witness :
    ∃ pre last, ([(0, 1), (1, 1)] : List (ℕ × ℕ)) = pre ++ [last] ∧
      (∀ p ∈ pre, p.1 < p.2) ∧ last.1 = last.2 :=
  search_inner_spray_spec envW 4 0 [] (2, [([0], 1)], [(0, 1), (1, 1)]) (by
    norm_num [innerLoop, doSpray, envW, memoizeSolvers, memoInsert, memoKey,
      keys, pyRound, roundHalfEven])

/-! Folded min/max compute the extreme of a value list, as Python min/max
do over the archive values. -/

lemma foldl_min_mem (vs : List ℚ) : ∀ v : ℚ, vs.foldl min v ∈ v :: vs := by
  induction vs with
  | nil => intro v; simp
  | cons w vs ih =>
      intro v
      rw [List.foldl_cons]
      rcases List.mem_cons.mp (ih (min v w)) with h | h
      · rw [h]
        rcases min_choice v w with hm | hm <;> rw [hm] <;> simp
      · exact List.mem_cons_of_mem _ (List.mem_cons_of_mem _ h)

lemma foldl_min_le (vs : List ℚ) : ∀ v x : ℚ, x ∈ v :: vs → vs.foldl min v ≤ x := by
  induction vs with
  | nil =>
      intro v x hx
      rw [List.mem_singleton] at hx
      rw [hx]
      simp
  | cons w vs ih =>
      intro v x hx
      rw [List.foldl_cons]
      rcases List.mem_cons.mp hx with h | h
      · rw [h]
        exact le_trans (ih (min v w) (min v w) (List.mem_cons_self _ _)) (min_le_left v w)
      · rcases List.mem_cons.mp h with h2 | h2
        · rw [h2]
          exact le_trans (ih (min v w) (min v w) (List.mem_cons_self _ _)) (min_le_right v w)
        · exact ih (min v w) x (List.mem_cons_of_mem _ h2)

lemma foldl_max_mem (vs : List ℚ) : ∀ v : ℚ, vs.foldl max v ∈ v :: vs := by
  induction vs with
  | nil => intro v; simp
  | cons w vs ih =>
      intro v
      rw [List.foldl_cons]
      rcases List.mem_cons.mp (ih (max v w)) with h | h
      · rw [h]
        rcases max_choice v w with hm | hm <;> rw [hm] <;> simp
      · exact List.mem_cons_of_mem _ (List.mem_cons_of_mem _ h)

lemma le_foldl_max (vs : List ℚ) : ∀ v x : ℚ, x ∈ v :: vs → x ≤ vs.foldl max v := by
  induction vs with
  | nil =>
      intro v x hx
      rw [List.mem_singleton] at hx
      rw [hx]
      simp
  | cons w vs ih =>
      intro v x hx
      rw [List.foldl_cons]
      rcases List.mem_cons.mp hx with h | h
      · rw [h]
        exact le_trans (le_max_left v w) (ih (max v w) (max v w) (List.mem_cons_self _ _))
      · rcases List.mem_cons.mp h with h2 | h2
        · rw [h2]
          exact le_trans (le_max_right v w) (ih (max v w) (max v w) (List.mem_cons_self _ _))
        · exact ih (max v w) x (List.mem_cons_of_mem _ h2)

/-- On a non-empty archive, the entry attaining the extreme value passes
the rounding test against itself, so the filtered minima set is non-empty. -/
lemma minima_filter_ne_nil (inv : Bool) (tol : ℕ) (p : Key × ℚ) (rest : Archive)
    (m : Archive) (h : Minima inv tol (p :: rest) = some m) : m ≠ [] := by
  have hm : m = (p :: rest).filter (fun q => decide (pyRound tol q.2 = pyRound tol
      (if inv then (rest.map Prod.snd).foldl max p.2
       else (rest.map Prod.snd).foldl min p.2))) := (Option.some.inj h).symm
  have hmem : (if inv then (rest.map Prod.snd).foldl max p.2
      else (rest.map Prod.snd).foldl min p.2) ∈ p.2 :: rest.map Prod.snd := by
    cases inv
    · simpa using foldl_min_mem (rest.map Prod.snd) p.2
    · simpa using foldl_max_mem (rest.map Prod.snd) p.2
  have hmem2 : (if inv then (rest.map Prod.snd).foldl max p.2
      else (rest.map Prod.snd).foldl min p.2) ∈ (p :: rest).map Prod.snd := by
    simpa using hmem
  obtain ⟨q, hq, hqe⟩ := List.mem_map.mp hmem2
  have hqm : q ∈ m := by
    rw [hm]
    refine List.mem_filter.mpr ⟨hq, ?_⟩
    rw [hqe]
    simp
  exact List.ne_nil_of_mem hqm

/-- C6: on every non-empty archive with distinct canonical keys, Minima
returns exactly the entries whose value rounds at tol to the same number
as the extreme value of the archive: the minimum when the inversion flag
is off and the maximum when it is on. -/
theorem minima_characterization (inv : Bool) (tol : ℕ) (a : Archive)
    (hne : a ≠ []) (hkeys : (keys a).Nodup) :
    ∃ m e, Minima inv tol a = some m ∧ isExtreme inv e (a.map Prod.snd) ∧
      ∀ k v, ((k, v) ∈ m ↔ (k, v) ∈ a ∧ pyRound tol v = pyRound tol e) := by
  obtain ⟨p, rest, rfl⟩ := List.exists_cons_of_ne_nil hne
  refine ⟨_, if inv then (rest.map Prod.snd).foldl max p.2
      else (rest.map Prod.snd).foldl min p.2, rfl, ?_, ?_⟩
  · constructor
    · cases inv
      · simpa using foldl_min_mem (rest.map Prod.snd) p.2
      · simpa using foldl_max_mem (rest.map Prod.snd) p.2
    · intro v hv
      cases inv
      · simpa using foldl_min_le (rest.map Prod.snd) p.2 v (by simpa using hv)
      · simpa using le_foldl_max (rest.map Prod.snd) p.2 v (by simpa using hv)
  · intro k v
    constructor
    · intro hkv
      obtain ⟨hin, htest⟩ := List.mem_filter.mp hkv
      exact ⟨hin, by simpa using htest⟩
    · intro ⟨hin, htest⟩
      exact List.mem_filter.mpr ⟨hin, by simpa using htest⟩

/-- C6 witness: a concrete two-entry archive, inversion off. -/
theorem minima_characterization_witness :
    ∃ m e, Minima false 8 ([([0], 2), ([1], 3)] : Archive) = some m ∧
      isExtreme false e (([([0], 2), ([1], 3)] : Archive).map Prod.snd) ∧
      ∀ k v, ((k, v) ∈ m ↔ (k, v) ∈ ([([(0 : ℚ)], (2 : ℚ)), ([1], 3)] : Archive) ∧
        pyRound 8 v = pyRound 8 e) :=
  minima_characterization false 8 [([0], 2), ([1], 3)] (by simp)
    (by norm_num [keys])

/-- C7: on every non-empty archive, the key set of Minima is contained in
the key set of the archive, and Minima is non-empty: the entry attaining
the extreme value always passes the rounding test against itself. -/
theorem minima_subset_nonempty (inv : Bool) (tol : ℕ) (a : Archive) (hne : a ≠ []) :
    ∃ m, Minima inv tol a = some m ∧ (∀ k, k ∈ keys m → k ∈ keys a) ∧ m ≠ [] := by
  obtain ⟨p, rest, rfl⟩ := List.exists_cons_of_ne_nil hne
  refine ⟨_, rfl, ?_, ?_⟩
  · intro k hk
    unfold keys at hk ⊢
    obtain ⟨q, hq, rfl⟩ := List.mem_map.mp hk
    exact List.mem_map_of_mem _ (List.mem_of_mem_filter hq)
  · exact minima_filter_ne_nil inv tol p rest _ rfl

/-- C7 witness: a concrete three-entry archive, inversion on. -/
theorem minima_subset_nonempty_witness :
    ∃ m, Minima true 2 ([([0], 2), ([1], 3), ([2], 1)] : Archive) = some m ∧
      (∀ k, k ∈ keys m → k ∈ keys ([([(0 : ℚ)], (2 : ℚ)), ([1], 3), ([2], 1)] : Archive)) ∧
      m ≠ [] :=
  minima_subset_nonempty true 2 [([0], 2), ([1], 3), ([2], 1)] (by simp)

/-- C10: Minima on an empty archive raises (Python min/max of an empty
value sequence raise ValueError, modelled as none) rather than returning
an empty mapping, and whenever Minima does return a mapping it is
non-empty. -/
theorem minima_empty_error :
    (∀ (inv : Bool) (tol : ℕ), Minima inv tol [] = none) ∧
    (∀ (inv : Bool) (tol : ℕ) (a m : Archive), Minima inv tol a = some m → m ≠ []) := by
  constructor
  · intro inv tol; rfl
  · intro inv tol a m h
    cases a with
    | nil => simp [Minima] at h
    | cons p rest => exact minima_filter_ne_nil inv tol p rest m h

/-- C10 witness: the empty archive gives none, and a concrete singleton
archive gives a non-empty minima set. -/
theorem minima_empty_error_witness :
    Minima false 8 ([] : Archive) = none ∧ ([([(0 : ℚ)], (2 : ℚ))] : Archive) ≠ [] :=
  ⟨minima_empty_error.1 false 8,
   minima_empty_error.2 false 8 [([0], 2)] [([0], 2)] (by
     norm_num [Minima, pyRound, roundHalfEven])⟩

/-! Memoization collision behaviour. -/

lemma memoInsert_of_mem (m : ℕ) (b : Archive) (y : List ℚ) (w : ℚ)
    (hk : memoKey m y ∈ keys b) : memoInsert m b y w = b := by
  unfold memoInsert
  rw [if_pos hk]

lemma memoInsert_of_not_mem (m : ℕ) (b : Archive) (y : List ℚ) (w : ℚ)
    (hk : memoKey m y ∉ keys b) : memoInsert m b y w = b ++ [(memoKey m y, w)] := by
  unfold memoInsert
  rw [if_neg hk]

/-- Once the shared key is present, a run of insertions at that key
changes nothing. -/
lemma foldl_same_key_noop (m : ℕ) (k : Key) :
    ∀ (ops : List (List ℚ × ℚ)) (a : Archive), (∀ p ∈ ops, memoKey m p.1 = k) →
      k ∈ keys a → ops.foldl (fun acc p => memoInsert m acc p.1 p.2) a = a := by
  intro ops
  induction ops with
  | nil => intro a _ _; rfl
  | cons q ops ih =>
      intro a hops hk
      have hq : memoKey m q.1 = k := hops q (List.mem_cons_self q ops)
      rw [List.foldl_cons, memoInsert_of_mem m a q.1 q.2 (hq ▸ hk)]
      exact ih a (fun p hp => hops p (List.mem_cons_of_mem q hp)) hk

/-- A run of insertions that all share one canonical key grows the
archive by at most one entry. -/
lemma foldl_same_key_length (m : ℕ) (k : Key) :
    ∀ (ops : List (List ℚ × ℚ)) (a : Archive), (∀ p ∈ ops, memoKey m p.1 = k) →
      (ops.foldl (fun acc p => memoInsert m acc p.1 p.2) a).length ≤ a.length + 1 := by
  intro ops
  induction ops with
  | nil => intro a _; simp
  | cons q ops ih =>
      intro a hops
      have hq : memoKey m q.1 = k := hops q (List.mem_cons_self q ops)
      rw [List.foldl_cons]
      by_cases hk : memoKey m q.1 ∈ keys a
      · rw [memoInsert_of_mem m a q.1 q.2 hk]
        exact ih a (fun p hp => hops p (List.mem_cons_of_mem q hp))
      · rw [memoInsert_of_not_mem m a q.1 q.2 hk]
        have hkin : k ∈ keys (a ++ [(memoKey m q.1, q.2)]) := by
          unfold keys
          rw [List.map_append]
          simp [← hq]
        rw [foldl_same_key_noop m k ops _
          (fun p hp => hops p (List.mem_cons_of_mem q hp)) hkin]
        simp

/-- C4 counterexample: at memtol = 1, the coordinate vectors [0.04] and
[0.06] differ componentwise by 0.02 < 10 ^ (-1), yet they round to the
distinct canonical keys [0.0] and [0.1], so memoizing both produces two
archive entries: the second insertion increases the archive size. -/
theorem dedup_tolerance_cex :
    |(1/25 : ℚ) - 3/50| < 1 / 10 ^ (1 : ℕ) ∧
    (memoInsert 1 ([] : Archive) [(1/25 : ℚ)] 5).length = 1 ∧
    (memoInsert 1 (memoInsert 1 ([] : Archive) [(1/25 : ℚ)] 5) [3/50] 7).length = 2 := by
  refine ⟨by rw [abs_lt]; constructor <;> norm_num, ?_, ?_⟩ <;>
    norm_num [memoInsert, memoKey, keys, pyRound, roundHalfEven]

/-- C4 amended: for coordinate vectors x and y that round to the same
canonical key at memtol precision (rather than merely differing by less
than 10 ^ (-memtol)), memoizing results at x and at y, in any order and
any number of times, produces at most one archive entry for that key. -/
theorem dedup_same_key (m : ℕ) (x y : List ℚ) (hxy : memoKey m x = memoKey m y)
    (ops : List (List ℚ × ℚ)) (hops : ∀ p ∈ ops, p.1 = x ∨ p.1 = y) :
    (ops.foldl (fun acc p => memoInsert m acc p.1 p.2) ([] : Archive)).length ≤ 1 := by
  have hall : ∀ p ∈ ops, memoKey m p.1 = memoKey m x := by
    intro p hp
    rcases hops p hp with h | h
    · rw [h]
    · rw [h]
      exact hxy.symm
  simpa using foldl_same_key_length m (memoKey m x) ops [] hall

/-- C4 amended witness: [0.04] and [0.01] share the canonical key [0.0]
at memtol 1, and three interleaved insertions leave at most one entry. -/
theorem dedup_same_key_witness :
    memoKey 1 [(1/25 : ℚ)] = memoKey 1 [(1/100 : ℚ)] ∧
    (([([(1/25 : ℚ)], (5 : ℚ)), ([1/100], 7), ([1/25], 9)]).foldl
        (fun acc p => memoInsert 1 acc p.1 p.2) ([] : Archive)).length ≤ 1 :=
  ⟨by norm_num [memoKey, pyRound, roundHalfEven],
   dedup_same_key 1 [1/25] [1/100] (by norm_num [memoKey, pyRound, roundHalfEven])
     [([1/25], 5), ([1/100], 7), ([1/25], 9)]
     (by intro p hp; fin_cases hp <;> simp)⟩

/-- C5 counterexample: writing value 5 then value 7 at the same canonical
key leaves 5 in the archive, not the last-written 7: the cache returns
the stored entry on a key hit and never overwrites. -/
theorem collision_last_write_cex :
    memoInsert 1 (memoInsert 1 ([] : Archive) [(0 : ℚ)] 5) [0] 7 = [([0], 5)] ∧
    (5 : ℚ) ≠ 7 := by
  norm_num [memoInsert, memoKey, keys, pyRound, roundHalfEven]

/-- C5 amended: when two memoized results collide on a canonical key, the
archive keeps the first value written for that key: the first insertion
appends the entry and the colliding later insertion changes nothing. -/
theorem collision_keep_first (m : ℕ) (a : Archive) (x y : List ℚ) (v w : ℚ)
    (hkey : memoKey m x = memoKey m y) (hnew : memoKey m x ∉ keys a) :
    memoInsert m a x v = a ++ [(memoKey m x, v)] ∧
    memoInsert m (memoInsert m a x v) y w = memoInsert m a x v := by
  have h1 : memoInsert m a x v = a ++ [(memoKey m x, v)] :=
    memoInsert_of_not_mem m a x v hnew
  refine ⟨h1, ?_⟩
  have h2 : memoKey m y ∈ keys (memoInsert m a x v) := by
    rw [h1]
    unfold keys
    rw [List.map_append]
    simp [← hkey]
  exact memoInsert_of_mem m _ y w h2

/-- C5 amended witness: the colliding vectors [0.04] and [0.01] at
memtol 1, values 5 then 7: the entry keeps value 5. -/
theorem collision_keep_first_witness :
    memoInsert 1 ([] : Archive) [(1/25 : ℚ)] 5 = [] ++ [(memoKey 1 [(1/25 : ℚ)], 5)] ∧
    memoInsert 1 (memoInsert 1 ([] : Archive) [(1/25 : ℚ)] 5) [1/100] 7 =
      memoInsert 1 ([] : Archive) [(1/25 : ℚ)] 5 :=
  collision_keep_first 1 [] [1/25] [1/100] 5 7
    (by norm_num [memoKey, pyRound, roundHalfEven]) (by simp [keys])

/-- C9 counterexample: with traj off and no persistent step log, the
raised message is "a LoggingMonitor or UseTrajectories is required", not
the message the claim states. -/
theorem trajectories_message_cex :
    Trajectories ⟨false, none, []⟩ (fun _ => ([], [], [])) = .error trajErrorMsg ∧
    trajErrorMsg ≠ "trajectory capture or a persistent generation monitor is required" := by
  exact ⟨rfl, by decide⟩

/-- C9 amended: calling Trajectories with trajectory capture disabled and
no persistent step log raises a RuntimeError, surfaced to the caller,
whose message is "a LoggingMonitor or UseTrajectories is required". -/
theorem trajectories_usage_error (s : TrajState) (readLog : String → TrajData)
    (h1 : s.traj = false) (h2 : s.stepmonFilename = none) :
    Trajectories s readLog = .error trajErrorMsg := by
  unfold Trajectories
  rw [h1, h2]
  rfl

/-- C9 amended witness: a concrete state with traj off, no filename and
one retained sprayer still raises the usage error. -/
theorem trajectories_usage_error_witness :
    Trajectories ⟨false, none, [[([0], [[0]], [0])]]⟩ (fun _ => ([], [], [])) =
      .error trajErrorMsg :=
  trajectories_usage_error ⟨false, none, [[([0], [[0]], [0])]]⟩ (fun _ => ([], [], [])) rfl rfl

end MysticSearch
